import Mathlib

/-!
Verification of the portfolio rebalancer core engine.

Shallow embedding of `src/portfolio_rebalancer.py` (class `PortfolioRebalancer`).
Floating-point column values are modelled by `PVal`: an exact rational for
finite floats, plus the IEEE special values `+inf`, `-inf` and `NaN` that
pandas produces on missing lookups and division by zero.  Python / pandas
comparison semantics (`NaN` compares false with everything) are modelled by
the `pythonLt` / `pythonLe` / `pythonEq` boolean operators.  Python's stable
sorts (`list.sort`, `sorted`) are modelled by a stable insertion sort
`sortB`; pandas `sort_values` (NaN last) is modelled by sorting the
non-NaN-keyed rows and appending the NaN-keyed rows.
-/

/-- A pandas float cell: finite rational, `+inf`, `-inf` or `NaN`. -/
inductive PVal where
  | fin (q : ℚ)
  | pinf
  | ninf
  | nan
deriving DecidableEq, Repr

namespace PVal

/-- IEEE-style addition (`NaN` absorbing, `+inf + -inf = NaN`). -/
def add : PVal → PVal → PVal
  | fin a, fin b => fin (a + b)
  | fin _, pinf => pinf
  | fin _, ninf => ninf
  | fin _, nan => nan
  | pinf, fin _ => pinf
  | pinf, pinf => pinf
  | pinf, ninf => nan
  | pinf, nan => nan
  | ninf, fin _ => ninf
  | ninf, pinf => nan
  | ninf, ninf => ninf
  | ninf, nan => nan
  | nan, _ => nan

/-- IEEE-style negation. -/
def neg : PVal → PVal
  | fin a => fin (-a)
  | pinf => ninf
  | ninf => pinf
  | nan => nan

/-- IEEE-style subtraction. -/
def sub (a b : PVal) : PVal := add a (neg b)

/-- IEEE-style multiplication (`inf * 0 = NaN`, sign rules otherwise). -/
def mul : PVal → PVal → PVal
  | fin a, fin b => fin (a * b)
  | fin a, pinf => if 0 < a then pinf else if a < 0 then ninf else nan
  | fin a, ninf => if 0 < a then ninf else if a < 0 then pinf else nan
  | fin _, nan => nan
  | pinf, fin b => if 0 < b then pinf else if b < 0 then ninf else nan
  | pinf, pinf => pinf
  | pinf, ninf => ninf
  | pinf, nan => nan
  | ninf, fin b => if 0 < b then ninf else if b < 0 then pinf else nan
  | ninf, pinf => ninf
  | ninf, ninf => pinf
  | ninf, nan => nan
  | nan, _ => nan

/-- IEEE-style division; a finite numerator over zero gives a signed
infinity (or `NaN` for `0/0`), matching numpy/pandas float division. -/
def div : PVal → PVal → PVal
  | fin a, fin b =>
      if b = 0 then (if 0 < a then pinf else if a < 0 then ninf else nan)
      else fin (a / b)
  | fin _, pinf => fin 0
  | fin _, ninf => fin 0
  | fin _, nan => nan
  | pinf, fin b => if b < 0 then ninf else pinf
  | pinf, pinf => nan
  | pinf, ninf => nan
  | pinf, nan => nan
  | ninf, fin b => if b < 0 then pinf else ninf
  | ninf, pinf => nan
  | ninf, ninf => nan
  | ninf, nan => nan
  | nan, _ => nan

/-- IEEE-style absolute value. -/
def abs : PVal → PVal
  | fin a => fin |a|
  | pinf => pinf
  | ninf => pinf
  | nan => nan

/-- Is the value a finite float? -/
def isFinite : PVal → Bool
  | fin _ => true
  | _ => false

/-- Is the value `NaN`? -/
def isNan : PVal → Bool
  | nan => true
  | _ => false

/-- The rational carried by a finite value (0 for the special values). -/
def toQ : PVal → ℚ
  | fin q => q
  | _ => 0

end PVal

/-- Comparison `<` of Python floats: any comparison involving `NaN` is false. -/
def pythonLt : PVal → PVal → Bool
  | PVal.fin a, PVal.fin b => decide (a < b)
  | PVal.fin _, PVal.pinf => true
  | PVal.fin _, PVal.ninf => false
  | PVal.fin _, PVal.nan => false
  | PVal.pinf, _ => false
  | PVal.ninf, PVal.fin _ => true
  | PVal.ninf, PVal.pinf => true
  | PVal.ninf, PVal.ninf => false
  | PVal.ninf, PVal.nan => false
  | PVal.nan, _ => false

/-- Comparison `<=` of Python floats: any comparison involving `NaN` is false. -/
def pythonLe : PVal → PVal → Bool
  | PVal.fin a, PVal.fin b => decide (a ≤ b)
  | PVal.fin _, PVal.pinf => true
  | PVal.fin _, PVal.ninf => false
  | PVal.fin _, PVal.nan => false
  | PVal.pinf, PVal.pinf => true
  | PVal.pinf, _ => false
  | PVal.ninf, PVal.nan => false
  | PVal.ninf, _ => true
  | PVal.nan, _ => false

/-- Comparison `==` of Python floats: `NaN` is not equal to anything, itself included. -/
def pythonEq : PVal → PVal → Bool
  | PVal.fin a, PVal.fin b => decide (a = b)
  | PVal.pinf, PVal.pinf => true
  | PVal.ninf, PVal.ninf => true
  | _, _ => false

theorem pythonLt_trans {a b c : PVal} (hab : pythonLt a b = true)
    (hbc : pythonLt b c = true) : pythonLt a c = true := by
  cases a <;> cases b <;> cases c <;> simp_all [pythonLt]
  exact lt_trans hab hbc

theorem pythonLt_asymm {a b : PVal} (hab : pythonLt a b = true) :
    pythonLt b a = false := by
  cases a <;> cases b <;> simp_all [pythonLt]
  exact le_of_lt hab

theorem pythonLe_of_lt_eq_false {a b : PVal} (hlt : pythonLt a b = true) :
    pythonLe b a = false := by
  cases a <;> cases b <;> simp_all [pythonLt, pythonLe]

/-! Stable insertion sort.

`sortB lt` is extensionally the behaviour of Python's stable sorts and of a
stable `sort_values`: each element of the input, taken left to right, is
inserted after every already-placed element it is not strictly below. -/

/-- Insert `x` into `l`, placing it before the first element `y` with
`lt x y`; with equal keys `x` lands after `y`, which gives stability. -/
def insertB {α : Type} (lt : α → α → Bool) (x : α) : List α → List α
  | [] => [x]
  | y :: ys => if lt x y then x :: y :: ys else y :: insertB lt x ys

/-- Stable insertion sort with strict-order comparator `lt`. -/
def sortB {α : Type} (lt : α → α → Bool) (l : List α) : List α :=
  l.foldl (fun acc x => insertB lt x acc) []

theorem insertB_perm {α : Type} (lt : α → α → Bool) (x : α) (l : List α) :
    List.Perm (insertB lt x l) (x :: l) := by
  induction l with
  | nil => simp [insertB]
  | cons y ys ih =>
      by_cases h : lt x y = true
      · simp [insertB, h]
      · simp only [insertB, h, if_false, Bool.not_eq_true] at *
        exact (List.Perm.cons y ih).trans (List.Perm.swap x y ys)

theorem sortB_aux_perm {α : Type} (lt : α → α → Bool) :
    ∀ (l acc : List α),
      List.Perm (l.foldl (fun acc x => insertB lt x acc) acc) (acc ++ l) := by
  intro l
  induction l with
  | nil => intro acc; simp
  | cons x xs ih =>
      intro acc
      have h1 := ih (insertB lt x acc)
      have h2 : List.Perm (insertB lt x acc ++ xs) (acc ++ x :: xs) :=
        ((insertB_perm lt x acc).append_right xs).trans List.perm_middle.symm
      simpa using h1.trans h2

theorem sortB_perm {α : Type} (lt : α → α → Bool) (l : List α) :
    List.Perm (sortB lt l) l := by
  simpa [sortB] using sortB_aux_perm lt l []

/-- The non-strict order associated to the comparator. -/
def notAfter {α : Type} (lt : α → α → Bool) (a b : α) : Prop := lt b a = false

theorem insertB_pairwise {α : Type} {lt : α → α → Bool}
    (htr : ∀ a b c : α, lt a b = true → lt b c = true → lt a c = true)
    (hasym : ∀ a b : α, lt a b = true → lt b a = false)
    (x : α) {l : List α} (hl : l.Pairwise (notAfter lt)) :
    (insertB lt x l).Pairwise (notAfter lt) := by
  induction l with
  | nil => simp [insertB, List.Pairwise]
  | cons y ys ih =>
      rcases List.pairwise_cons.mp hl with ⟨hy, hys⟩
      by_cases h : lt x y = true
      · simp only [insertB, h, if_true]
        refine List.pairwise_cons.mpr ⟨?_, hl⟩
        intro z hz
        rcases List.mem_cons.mp hz with rfl | hz'
        · exact hasym _ _ h
        · have hyz := hy z hz'
          unfold notAfter at hyz ⊢
          by_cases hzx : lt z x = true
          · have := htr _ _ _ hzx h
            rw [this] at hyz
            exact absurd hyz (by simp)
          · simpa using hzx
      · simp only [insertB, h, if_false]
        refine List.pairwise_cons.mpr ⟨?_, ih hys⟩
        intro z hz
        have hz' := (insertB_perm lt x ys).mem_iff.mp hz
        rcases List.mem_cons.mp hz' with rfl | hz''
        · unfold notAfter
          simpa using h
        · exact hy z hz''

theorem insertB_sortedAcc {α : Type} {lt : α → α → Bool}
    (htr : ∀ a b c : α, lt a b = true → lt b c = true → lt a c = true)
    (hasym : ∀ a b : α, lt a b = true → lt b a = false) :
    ∀ (l acc : List α), acc.Pairwise (notAfter lt) →
      (l.foldl (fun acc x => insertB lt x acc) acc).Pairwise (notAfter lt) := by
  intro l
  induction l with
  | nil => intro acc h; simpa using h
  | cons x xs ih =>
      intro acc h
      simpa using ih (insertB lt x acc) (insertB_pairwise htr hasym x h)

theorem sortB_pairwise {α : Type} {lt : α → α → Bool}
    (htr : ∀ a b c : α, lt a b = true → lt b c = true → lt a c = true)
    (hasym : ∀ a b : α, lt a b = true → lt b a = false)
    (l : List α) : (sortB lt l).Pairwise (notAfter lt) :=
  insertB_sortedAcc htr hasym l [] (by simp)

/-! Data model.

`RawLot` is one holdings record (`load_portfolio` row); `ValuedLot` is a row
of the DataFrame returned by `calculate_current_values`; `AllocRow` is a row
of the DataFrame returned by `analyze_allocation`; `TLHOpp` and `Trade` are
the dictionaries built by `identify_tax_loss_harvesting` and
`generate_rebalancing_trades`.  Dates are day numbers (`ℤ`), so that
`days_held` is a plain difference, and price/target maps are association
lists looked up by ticker. -/

/-- One raw holdings record: ticker, shares, cost basis and purchase date. -/
structure RawLot where
  ticker : String
  shares : ℚ
  cost_basis : ℚ
  purchase_date : ℤ
deriving DecidableEq, Repr

/-- One valued lot: a row of the DataFrame after `calculate_current_values`. -/
structure ValuedLot where
  ticker : String
  shares : ℚ
  cost_basis : ℚ
  purchase_date : ℤ
  current_price : PVal
  current_value : PVal
  total_cost : PVal
  unrealized_gain : PVal
  gain_pct : PVal
  days_held : ℤ
  is_long_term : Bool
deriving DecidableEq, Repr

/-- One row of the allocation DataFrame built by `analyze_allocation`. -/
structure AllocRow where
  ticker : String
  current_value : PVal
  unrealized_gain : PVal
  current_weight : PVal
  target_weight : ℚ
  weight_diff : PVal
  drift_pct : PVal
  dollar_diff : PVal
deriving DecidableEq, Repr

/-- One tax-loss-harvesting opportunity dictionary. -/
structure TLHOpp where
  ticker : String
  shares : ℚ
  unrealized_loss : PVal
  tax_benefit : PVal
  current_value : PVal
  days_held : ℤ
  purchase_date : ℤ
deriving DecidableEq, Repr

/-- Trade actions (`'BUY'` / `'SELL'`; named `TradeAction` because Lean's
library already claims the name `Action`). -/
inductive TradeAction | BUY | SELL
deriving DecidableEq, Repr

/-- Trade types. -/
inductive TradeType | LIQUIDATE | NEW_POSITION | ADJUST
deriving DecidableEq, Repr

/-- One recommended trade dictionary. -/
structure Trade where
  ticker : String
  action : TradeAction
  dollar_amount : PVal
  current_weight : PVal
  target_weight : ℚ
  drift_pct : PVal
  tax_impact : PVal
  net_benefit : PVal
  trade_type : TradeType
deriving DecidableEq, Repr

/-- Dictionary lookup by ticker (`Dict[str, float]` access / `.map`). -/
def lookupQ (m : List (String × ℚ)) (t : String) : Option ℚ :=
  m.lookup t

/-! Embedding of `calculate_current_values` (src/portfolio_rebalancer.py lines 47-70).

`df['ticker'].map(current_prices)` yields `NaN` for a ticker missing from
the price dict; arithmetic on that `NaN` propagates.  `datetime.now()` is
the explicit parameter `now` (a day number). -/

/-- Value one lot, mirroring the column assignments of
`calculate_current_values` row by row. -/
def valueLot (current_prices : List (String × ℚ)) (now : ℤ)
    (l : RawLot) : ValuedLot :=
  let cp : PVal := match lookupQ current_prices l.ticker with
    | some p => PVal.fin p
    | none => PVal.nan
  let cv := PVal.mul (PVal.fin l.shares) cp
  let tc := PVal.mul (PVal.fin l.shares) (PVal.fin l.cost_basis)
  let ug := PVal.sub cv tc
  let gp := PVal.mul (PVal.div ug tc) (PVal.fin 100)
  let dh := now - l.purchase_date
  { ticker := l.ticker
    shares := l.shares
    cost_basis := l.cost_basis
    purchase_date := l.purchase_date
    current_price := cp
    current_value := cv
    total_cost := tc
    unrealized_gain := ug
    gain_pct := gp
    days_held := dh
    is_long_term := decide (365 ≤ dh) }

/-- Function `calculate_current_values`: annotate every lot with current values,
gains and holding-period classification. -/
def calculate_current_values (portfolio : List RawLot)
    (current_prices : List (String × ℚ)) (now : ℤ) : List ValuedLot :=
  portfolio.map (valueLot current_prices now)

/-! Embedding of `analyze_allocation` (src/portfolio_rebalancer.py lines 72-92). -/

/-- Model of pandas `Series.sum()` / groupby-`sum` with the default `skipna=True`:
`NaN` cells are skipped, an all-`NaN` or empty column sums to `0.0`. -/
def psum (l : List PVal) : PVal :=
  l.foldl (fun acc x => match x with
    | PVal.nan => acc
    | _ => PVal.add acc x) (PVal.fin 0)

/-- Build the allocation row of one ticker group: sum `current_value` and
`unrealized_gain` over the group's lots, then add the derived columns. -/
def mkAllocRow (lots : List ValuedLot) (target_allocation : List (String × ℚ))
    (total_value : PVal) (t : String) : AllocRow :=
  let grp := lots.filter (fun l => decide (l.ticker = t))
  let gv := psum (grp.map (fun l => l.current_value))
  let gg := psum (grp.map (fun l => l.unrealized_gain))
  let cw := PVal.div gv total_value
  let tw := (lookupQ target_allocation t).getD 0
  let wd := PVal.sub cw (PVal.fin tw)
  let dp := PVal.mul (PVal.div wd (PVal.fin tw)) (PVal.fin 100)
  let dd := PVal.mul wd total_value
  { ticker := t
    current_value := gv
    unrealized_gain := gg
    current_weight := cw
    target_weight := tw
    weight_diff := wd
    drift_pct := dp
    dollar_diff := dd }

/-- Function `analyze_allocation`: group the held lots by ticker (`groupby('ticker')`
sorts the distinct keys ascending), aggregate, derive weights and drift,
then `sort_values('drift_pct', ascending=False)` (NaN keys placed last;
the order of equal-drift rows is not fixed by pandas' default quicksort and
is modelled here by a stable sort). -/
def analyze_allocation (lots : List ValuedLot)
    (target_allocation : List (String × ℚ)) : List AllocRow :=
  let total_value := psum (lots.map (fun l => l.current_value))
  let tickers := sortB (fun a b => decide (a < b))
    (lots.map (fun l => l.ticker)).dedup
  let rows := tickers.map (mkAllocRow lots target_allocation total_value)
  sortB (fun a b => pythonLt b.drift_pct a.drift_pct)
      (rows.filter (fun r => !r.drift_pct.isNan))
    ++ rows.filter (fun r => r.drift_pct.isNan)

/-! Embedding of `identify_tax_loss_harvesting` (src/portfolio_rebalancer.py lines 94-123). -/

/-- The opportunity dictionary appended for one qualifying lot. -/
def mkOpp (tax_rate : ℚ) (l : ValuedLot) : TLHOpp :=
  { ticker := l.ticker
    shares := l.shares
    unrealized_loss := l.unrealized_gain
    tax_benefit := PVal.mul (PVal.abs l.unrealized_gain) (PVal.fin tax_rate)
    current_value := l.current_value
    days_held := l.days_held
    purchase_date := l.purchase_date }

/-- Function `identify_tax_loss_harvesting`: per-lot scan for
`unrealized_gain < -min_loss`, then Python's stable
`sorted(..., key=tax_benefit, reverse=True)`. -/
def identify_tax_loss_harvesting (lots : List ValuedLot) (min_loss : ℚ)
    (tax_rate : ℚ) : List TLHOpp :=
  let opportunities :=
    (lots.filter (fun l => pythonLt l.unrealized_gain (PVal.fin (-min_loss)))).map
      (mkOpp tax_rate)
  sortB (fun a b => pythonLt b.tax_benefit a.tax_benefit) opportunities

/-! Embedding of `generate_rebalancing_trades` (src/portfolio_rebalancer.py lines 125-188). -/

/-- Emission test: `abs(row['weight_diff']) > 0.001 or row['target_weight']
== 0`. -/
def tradeCond (row : AllocRow) : Bool :=
  pythonLt (PVal.fin (1/1000)) (PVal.abs row.weight_diff)
    || decide (row.target_weight = 0)

/-- The tax-impact estimate of the sell leg (lines 146-162): only for SELL
with positive aggregate gain; lots of the ticker sorted by descending cost
basis, shares to sell priced at the first sorted lot's current price, gain
prorated only when the sale is covered by the shares held. -/
def computeTaxImpact (portfolio : List ValuedLot) (tax_rate : ℚ)
    (row : AllocRow) (dollar_change : PVal) (action : TradeAction) : PVal :=
  if action = TradeAction.SELL
      && pythonLt (PVal.fin 0) row.unrealized_gain then
    let ticker_lots := portfolio.filter (fun l => decide (l.ticker = row.ticker))
    let sorted_lots := sortB (fun a b => decide (b.cost_basis < a.cost_basis))
      ticker_lots
    match sorted_lots with
    | [] => PVal.fin 0
    | hd :: _ =>
      let shares_to_sell := PVal.div (PVal.abs dollar_change) hd.current_price
      if pythonLt (PVal.fin 0) shares_to_sell then
        let total_shares := (sorted_lots.map (fun l => l.shares)).sum
        if pythonLe shares_to_sell (PVal.fin total_shares) then
          let gain_per_share := PVal.div row.unrealized_gain
            (PVal.fin total_shares)
          let total_gain := PVal.mul gain_per_share shares_to_sell
          let rate := tax_rate * (if hd.is_long_term then 3/5 else 1)
          PVal.mul total_gain (PVal.fin rate)
        else PVal.fin 0
      else PVal.fin 0
  else PVal.fin 0

/-- The trade dictionary built for one allocation row (lines 138-182). -/
def mkTrade (portfolio : List ValuedLot) (total_portfolio_value tax_rate : ℚ)
    (row : AllocRow) : Trade :=
  let target_value := row.target_weight * total_portfolio_value
  let dollar_change := PVal.sub (PVal.fin target_value) row.current_value
  let action := if pythonLt (PVal.fin 0) dollar_change then TradeAction.BUY
    else TradeAction.SELL
  let tax_impact := computeTaxImpact portfolio tax_rate row dollar_change action
  let trade_type :=
    if row.target_weight = 0 then TradeType.LIQUIDATE
    else if pythonEq row.current_weight (PVal.fin 0)
        || pythonLt row.current_weight (PVal.fin (1/100)) then
      TradeType.NEW_POSITION
    else TradeType.ADJUST
  { ticker := row.ticker
    action := action
    dollar_amount := PVal.abs dollar_change
    current_weight := row.current_weight
    target_weight := row.target_weight
    drift_pct := row.drift_pct
    tax_impact := tax_impact
    net_benefit := PVal.sub (PVal.abs dollar_change) tax_impact
    trade_type := trade_type }

/-- Ranks of the `sort_order` dict (line 185). -/
def rankOf : TradeType → ℕ
  | TradeType.LIQUIDATE => 0
  | TradeType.ADJUST => 1
  | TradeType.NEW_POSITION => 2

/-- Whether the trade's action key `x['action'] == 'BUY'` is `True`. -/
def isBuy (t : Trade) : Bool := decide (t.action = TradeAction.BUY)

/-- Comparison of Python tuples `<` on the sort key
`(sort_order.get(trade_type, 3), action == 'BUY', -dollar_amount)`,
including the float semantics of the third component. -/
def tradeKeyLt (a b : Trade) : Bool :=
  if rankOf a.trade_type = rankOf b.trade_type then
    if isBuy a = isBuy b then
      pythonLt (PVal.neg a.dollar_amount) (PVal.neg b.dollar_amount)
    else !(isBuy a)
  else decide (rankOf a.trade_type < rankOf b.trade_type)

/-- Function `generate_rebalancing_trades`: one candidate trade per allocation row
passing `tradeCond`, then the stable `trades.sort(key=...)`. -/
def generate_rebalancing_trades (allocation : List AllocRow)
    (portfolio : List ValuedLot)
    (total_portfolio_value tax_rate : ℚ) : List Trade :=
  sortB tradeKeyLt
    ((allocation.filter tradeCond).map
      (mkTrade portfolio total_portfolio_value tax_rate))

/-! Concrete sample data, used by witnesses and counterexamples below. -/

/-- A VTI lot from `run_example` (purchase date as day number, `now = 400`). -/
def exRawVTI : RawLot := ⟨"VTI", 100, 220, 0⟩

/-- Price map covering only VTI. -/
def exPrices : List (String × ℚ) := [("VTI", 245)]

/-- Target allocation that also targets the unheld ticker NVDA at 8%. -/
def exTargetNvda : List (String × ℚ) := [("VTI", 92/100), ("NVDA", 8/100)]

/-- The valued VTI portfolio. -/
def exVLots : List ValuedLot := calculate_current_values [exRawVTI] exPrices 400

/-- A holdings record whose ticker has no price entry. -/
def exRawX : RawLot := ⟨"X", 10, 5, 0⟩

/-- A lot with zero shares (so `total_cost == 0`). -/
def exRawZeroShares : RawLot := ⟨"Z", 0, 5, 0⟩

/-- An allocation row with a 50% target and finite values. -/
def exRowHalf : AllocRow :=
  ⟨"A", PVal.fin 100, PVal.fin 10, PVal.fin 1, 1/2, PVal.fin (1/2),
    PVal.fin 100, PVal.fin 50⟩

/-- An allocation row with target weight zero and positive holdings. -/
def exRowZeroTarget : AllocRow :=
  ⟨"Z", PVal.fin 100, PVal.fin 10, PVal.fin (1/10), 0, PVal.fin (1/10),
    PVal.nan, PVal.fin 100⟩

/-- A losing lot with ticker "B" (unrealized gain -2000). -/
def exLotB : ValuedLot :=
  ⟨"B", 10, 300, 0, PVal.fin 100, PVal.fin 1000, PVal.fin 3000,
    PVal.fin (-2000), PVal.fin 0, 100, false⟩

/-- A losing lot with ticker "A", identical numbers to `exLotB`. -/
def exLotA : ValuedLot :=
  ⟨"A", 10, 300, 0, PVal.fin 100, PVal.fin 1000, PVal.fin 3000,
    PVal.fin (-2000), PVal.fin 0, 100, false⟩

/-- An allocation row driving an oversized SELL: current value 1000 with a
positive aggregate gain, while the portfolio below holds only one share. -/
def exRowOversell : AllocRow :=
  ⟨"A", PVal.fin 1000, PVal.fin 500, PVal.fin (1/2), 1/2, PVal.fin (-1/4),
    PVal.fin (-50), PVal.fin (-250)⟩

/-- The single one-share lot backing `exRowOversell`. -/
def exLotOversell : ValuedLot :=
  ⟨"A", 1, 50, 0, PVal.fin 100, PVal.fin 100, PVal.fin 50, PVal.fin 50,
    PVal.fin 100, 400, true⟩

/-! Helper lemmas about `PVal` arithmetic and the pandas sum. -/

theorem PVal.add_fin (a b : ℚ) : PVal.add (PVal.fin a) (PVal.fin b) = PVal.fin (a + b) := rfl

theorem PVal.sub_fin (a b : ℚ) : PVal.sub (PVal.fin a) (PVal.fin b) = PVal.fin (a - b) := by
  simp [PVal.sub, PVal.neg, PVal.add, sub_eq_add_neg]

theorem PVal.mul_fin (a b : ℚ) : PVal.mul (PVal.fin a) (PVal.fin b) = PVal.fin (a * b) := rfl

theorem PVal.abs_fin (a : ℚ) : PVal.abs (PVal.fin a) = PVal.fin |a| := rfl

theorem PVal.div_fin {a b : ℚ} (hb : b ≠ 0) :
    PVal.div (PVal.fin a) (PVal.fin b) = PVal.fin (a / b) := by
  simp [PVal.div, hb]

theorem pythonLt_fin (a b : ℚ) : pythonLt (PVal.fin a) (PVal.fin b) = decide (a < b) := rfl

theorem pythonLe_fin (a b : ℚ) : pythonLe (PVal.fin a) (PVal.fin b) = decide (a ≤ b) := rfl

theorem pythonLt_irrefl (a : PVal) : pythonLt a a = false := by
  cases a <;> simp [pythonLt]

theorem psum_fin (l : List PVal) (h : ∀ x ∈ l, x.isFinite = true) :
    psum l = PVal.fin ((l.map PVal.toQ).sum) := by
  suffices haux : ∀ (l : List PVal) (q : ℚ), (∀ x ∈ l, x.isFinite = true) →
      l.foldl (fun acc x => match x with
        | PVal.nan => acc
        | _ => PVal.add acc x) (PVal.fin q) = PVal.fin (q + (l.map PVal.toQ).sum) by
    simpa [psum] using haux l 0 h
  intro l
  induction l with
  | nil => intro q _; simp
  | cons x xs ih =>
      intro q h
      have hx : x.isFinite = true := h x (by simp)
      cases x with
      | fin qx =>
          have := ih (q + qx) (fun y hy => h y (by simp [hy]))
          simpa [PVal.add, PVal.toQ, add_assoc] using this
      | pinf => simp [PVal.isFinite] at hx
      | ninf => simp [PVal.isFinite] at hx
      | nan => simp [PVal.isFinite] at hx

/-! Helper lemmas about the shape of `analyze_allocation` and
`generate_rebalancing_trades` output. -/

theorem analyze_allocation_perm (lots : List ValuedLot)
    (target : List (String × ℚ)) :
    List.Perm (analyze_allocation lots target)
      ((sortB (fun a b => decide (a < b)) (lots.map (fun l => l.ticker)).dedup).map
        (mkAllocRow lots target (psum (lots.map (fun l => l.current_value))))) := by
  unfold analyze_allocation
  refine List.Perm.trans ((sortB_perm _ _).append_right _) ?_
  have h := List.filter_append_perm (fun r : AllocRow => !r.drift_pct.isNan)
    ((sortB (fun a b => decide (a < b)) (lots.map (fun l => l.ticker)).dedup).map
      (mkAllocRow lots target (psum (lots.map (fun l => l.current_value)))))
  simpa using h

theorem mem_analyze_allocation {lots : List ValuedLot}
    {target : List (String × ℚ)} {row : AllocRow}
    (h : row ∈ analyze_allocation lots target) :
    ∃ t, row = mkAllocRow lots target
      (psum (lots.map (fun l => l.current_value))) t := by
  have hm := (analyze_allocation_perm lots target).mem_iff.mp h
  rcases List.mem_map.mp hm with ⟨t, _, rfl⟩
  exact ⟨t, rfl⟩

theorem generate_perm (allocation : List AllocRow) (portfolio : List ValuedLot)
    (total_portfolio_value tax_rate : ℚ) :
    List.Perm (generate_rebalancing_trades allocation portfolio
        total_portfolio_value tax_rate)
      ((allocation.filter tradeCond).map
        (mkTrade portfolio total_portfolio_value tax_rate)) :=
  sortB_perm _ _

theorem mem_generate {allocation : List AllocRow} {portfolio : List ValuedLot}
    {total_portfolio_value tax_rate : ℚ} {t : Trade}
    (h : t ∈ generate_rebalancing_trades allocation portfolio
      total_portfolio_value tax_rate) :
    ∃ row ∈ allocation, tradeCond row = true ∧
      t = mkTrade portfolio total_portfolio_value tax_rate row := by
  have hm := (generate_perm allocation portfolio _ _).mem_iff.mp h
  rcases List.mem_map.mp hm with ⟨row, hrow, rfl⟩
  rcases List.mem_filter.mp hrow with ⟨h1, h2⟩
  exact ⟨row, h1, h2, rfl⟩

theorem mkTrade_mem_generate {allocation : List AllocRow}
    {portfolio : List ValuedLot} {total_portfolio_value tax_rate : ℚ}
    {row : AllocRow} (hmem : row ∈ allocation) (hcond : tradeCond row = true) :
    mkTrade portfolio total_portfolio_value tax_rate row ∈
      generate_rebalancing_trades allocation portfolio
        total_portfolio_value tax_rate := by
  refine (generate_perm allocation portfolio _ _).mem_iff.mpr ?_
  exact List.mem_map_of_mem _ (List.mem_filter.mpr ⟨hmem, hcond⟩)

/-! Claim C2. -/

/-- C2, counterexample: valuing a portfolio whose held ticker "X" has no
entry in the price map does not abort with a `MissingPriceError`; the code
returns a valuation row whose price, value, gain and gain percentage are
silently `NaN`. -/
theorem C2_counterexample :
    calculate_current_values [exRawX] [] 100 =
      [⟨"X", 10, 5, 0, PVal.nan, PVal.nan, PVal.fin 50, PVal.nan, PVal.nan,
        100, false⟩] := by
  with_unfolding_all decide

/-- C2, amended: when a held ticker has no entry in the price map,
`calculate_current_values` does not fail (no `MissingPriceError` exists in
the code); it produces a row whose `current_price`, `current_value`,
`unrealized_gain` and `gain_pct` are all `NaN`, so a partial, silently
NaN-filled valuation does propagate. -/
theorem C2_missing_price_yields_nan (lots : List RawLot)
    (prices : List (String × ℚ)) (now : ℤ) (l : ValuedLot)
    (hl : l ∈ calculate_current_values lots prices now)
    (hnone : lookupQ prices l.ticker = none) :
    l.current_price = PVal.nan ∧ l.current_value = PVal.nan ∧
      l.unrealized_gain = PVal.nan ∧ l.gain_pct = PVal.nan := by
  rcases List.mem_map.mp hl with ⟨r, _, rfl⟩
  have ht : (valueLot prices now r).ticker = r.ticker := rfl
  rw [ht] at hnone
  simp [valueLot, hnone, PVal.mul, PVal.sub, PVal.add, PVal.neg, PVal.div]

/-- Witness for C2: the concrete missing-price valuation. -/
theorem C2_missing_price_yields_nan_witness :
    (valueLot [] 100 exRawX).current_price = PVal.nan ∧
      (valueLot [] 100 exRawX).current_value = PVal.nan ∧
      (valueLot [] 100 exRawX).unrealized_gain = PVal.nan ∧
      (valueLot [] 100 exRawX).gain_pct = PVal.nan :=
  C2_missing_price_yields_nan [exRawX] [] 100 (valueLot [] 100 exRawX)
    (by simp [calculate_current_values]) (by rfl)

/-! Claim C3. -/

/-- C3, counterexample: with `total_portfolio_value == 0` the generator does
not fail with a `ZeroPortfolioError`; on a finite allocation row it returns
a normal SELL trade whose dollar amount is the row's current value. -/
theorem C3_counterexample :
    generate_rebalancing_trades [exRowHalf] [] 0 (24/100) =
      [⟨"A", TradeAction.SELL, PVal.fin 100, PVal.fin 1, 1/2, PVal.fin 100,
        PVal.fin 0, PVal.fin 100, TradeType.ADJUST⟩] := by
  with_unfolding_all decide

/-- C3, amended: when `total_portfolio_value == 0`,
`generate_rebalancing_trades` does not fail (no `ZeroPortfolioError` exists
in the code); it generates trades normally, and whenever the allocation
rows carry finite current values the emitted dollar amounts are finite
floats, not NaN. -/
theorem C3_zero_total_trades_finite (allocation : List AllocRow)
    (portfolio : List ValuedLot) (tax_rate : ℚ)
    (hfin : ∀ row ∈ allocation, row.current_value.isFinite = true) :
    ∀ t ∈ generate_rebalancing_trades allocation portfolio 0 tax_rate,
      t.dollar_amount.isFinite = true := by
  intro t ht
  rcases mem_generate ht with ⟨row, hrow, _, rfl⟩
  have hf := hfin row hrow
  cases hcv : row.current_value with
  | fin q =>
      simp [mkTrade, hcv, PVal.sub_fin, PVal.abs_fin, PVal.isFinite]
  | pinf => rw [hcv] at hf; simp [PVal.isFinite] at hf
  | ninf => rw [hcv] at hf; simp [PVal.isFinite] at hf
  | nan => rw [hcv] at hf; simp [PVal.isFinite] at hf

/-- Witness for C3: the concrete zero-total trade has a finite amount. -/
theorem C3_zero_total_trades_finite_witness :
    (⟨"A", TradeAction.SELL, PVal.fin 100, PVal.fin 1, 1/2, PVal.fin 100,
      PVal.fin 0, PVal.fin 100, TradeType.ADJUST⟩ : Trade).dollar_amount.isFinite
      = true :=
  C3_zero_total_trades_finite [exRowHalf] [] (24/100)
    (by with_unfolding_all decide) _ (by with_unfolding_all decide)

/-! Claim C9. -/

/-- C9: valuation and allocation never crash on division by zero: a lot
with `total_cost == 0` gets a non-finite sentinel (`NaN`/`inf`) as
`gain_pct`, and an allocation row with `target_weight == 0` gets a
non-finite sentinel as `drift_pct`; both functions are total. -/
theorem C9_division_by_zero_sentinels :
    (∀ (lots : List RawLot) (prices : List (String × ℚ)) (now : ℤ)
      (l : ValuedLot), l ∈ calculate_current_values lots prices now →
      l.total_cost = PVal.fin 0 → l.gain_pct.isFinite = false)
  ∧ (∀ (lots : List ValuedLot) (target : List (String × ℚ)) (row : AllocRow),
      row ∈ analyze_allocation lots target → row.target_weight = 0 →
      row.drift_pct.isFinite = false) := by
  constructor
  · intro lots prices now l hl htc
    rcases List.mem_map.mp hl with ⟨r, _, rfl⟩
    have htc' : PVal.mul (PVal.fin r.shares) (PVal.fin r.cost_basis) =
        PVal.fin 0 := htc
    rw [PVal.mul_fin] at htc'
    have hz : r.shares * r.cost_basis = 0 := by
      injection htc'
    cases hlk : lookupQ prices r.ticker with
    | none =>
        simp [valueLot, hlk, PVal.mul, PVal.sub, PVal.add, PVal.neg,
          PVal.div, PVal.isFinite]
    | some p =>
        simp only [valueLot, hlk, PVal.mul_fin, PVal.sub_fin]
        rw [hz, PVal.div]
        rcases lt_trichotomy (r.shares * p - 0) 0 with h | h | h <;>
          simp [h, not_lt_of_gt, PVal.mul, PVal.isFinite] <;>
          split_ifs <;> simp_all [PVal.isFinite]
  · intro lots target row hrow htw
    rcases mem_analyze_allocation hrow with ⟨t, rfl⟩
    have htw' : (lookupQ target t).getD 0 = 0 := htw
    simp only [mkAllocRow, htw']
    cases hcw : PVal.div (psum (List.map (fun l => l.current_value)
        (lots.filter (fun l => decide (l.ticker = t)))))
        (psum (lots.map (fun l => l.current_value))) with
    | fin q =>
        simp only [PVal.sub_fin, PVal.div]
        rcases lt_trichotomy (q - 0) 0 with h | h | h <;>
          simp [h, not_lt_of_gt, PVal.mul, PVal.isFinite] <;>
          split_ifs <;> simp_all [PVal.isFinite]
    | pinf => simp [PVal.sub, PVal.add, PVal.neg, PVal.div, PVal.mul,
        PVal.isFinite]
    | ninf => simp [PVal.sub, PVal.add, PVal.neg, PVal.div, PVal.mul,
        PVal.isFinite]
    | nan => simp [PVal.sub, PVal.add, PVal.neg, PVal.div, PVal.mul,
        PVal.isFinite]

/-- Witness for C9: a zero-share lot gets a NaN `gain_pct`, and an
untargeted held ticker gets a non-finite `drift_pct`. -/
theorem C9_division_by_zero_sentinels_witness :
    (valueLot [("Z", 10)] 100 exRawZeroShares).gain_pct.isFinite = false ∧
      (mkAllocRow [exLotB] []
        (psum ([exLotB].map (fun l => l.current_value))) "B").drift_pct.isFinite
        = false :=
  ⟨C9_division_by_zero_sentinels.1 [exRawZeroShares] [("Z", 10)] 100
      (valueLot [("Z", 10)] 100 exRawZeroShares)
      (by simp [calculate_current_values]) (by with_unfolding_all decide),
    C9_division_by_zero_sentinels.2 [exLotB] []
      (mkAllocRow [exLotB] []
        (psum ([exLotB].map (fun l => l.current_value))) "B")
      (by set_option maxRecDepth 4000 in with_unfolding_all decide)
      (by with_unfolding_all decide)⟩

/-! Claim C1. -/

/-- Helper: the tickers of the allocation rows are exactly the deduplicated
tickers of the held lots. -/
theorem analyze_tickers_perm (lots : List ValuedLot)
    (target : List (String × ℚ)) :
    List.Perm ((analyze_allocation lots target).map (fun r => r.ticker))
      (lots.map (fun l => l.ticker)).dedup := by
  have h := (analyze_allocation_perm lots target).map (fun r => r.ticker)
  rw [List.map_map] at h
  have he : ((fun r : AllocRow => r.ticker) ∘ mkAllocRow lots target
      (psum (lots.map (fun l => l.current_value)))) = id := by
    funext t; rfl
  rw [he, List.map_id] at h
  exact h.trans (sortB_perm _ _)

/-- C1, counterexample: with a portfolio holding only VTI and a target
allocation that also targets NVDA at 8%, `analyze_allocation` returns no
row for NVDA (so no `current_weight = 0` row) and
`generate_rebalancing_trades` emits no NVDA trade, contradicting the
claimed held-or-targeted union and the NEW_POSITION BUY for NVDA. -/
theorem C1_counterexample :
    ((analyze_allocation exVLots exTargetNvda).map (fun r => r.ticker)
      = ["VTI"]) ∧
    ((generate_rebalancing_trades (analyze_allocation exVLots exTargetNvda)
        exVLots 24500 (24/100)).map (fun t => t.ticker) = ["VTI"]) := by
  with_unfolding_all decide

/-- C1, amended: `analyze_allocation` returns one AllocationRow per
distinct ticker that is held (it groups the held lots only): a ticker
appears among the rows iff some lot carries it, each at most once, so a
ticker with positive target weight but no holdings yields no row and
consequently no NEW_POSITION trade. -/
theorem C1_rows_are_held_tickers (lots : List ValuedLot)
    (target : List (String × ℚ)) :
    ((analyze_allocation lots target).map (fun r => r.ticker)).Nodup ∧
    ∀ t : String,
      t ∈ (analyze_allocation lots target).map (fun r => r.ticker) ↔
        t ∈ lots.map (fun l => l.ticker) := by
  have hperm := analyze_tickers_perm lots target
  constructor
  · exact hperm.nodup_iff.mpr (List.nodup_dedup _)
  · intro t
    rw [hperm.mem_iff, List.mem_dedup]

/-! Claim C4. -/

theorem PVal.fin_toQ {x : PVal} (h : x.isFinite = true) : PVal.fin x.toQ = x := by
  cases x <;> simp_all [PVal.isFinite, PVal.toQ]

theorem list_sum_div (l : List ℚ) (c : ℚ) :
    (l.map (fun q => q / c)).sum = l.sum / c := by
  induction l with
  | nil => simp
  | cons x xs ih => simp [ih, add_div]

/-- Helper: summing the fiber sums over a duplicate-free list of keys that
covers every lot's ticker gives the total sum. -/
theorem sum_map_filter_eq (ks : List String) (ls : List ValuedLot)
    (f : ValuedLot → ℚ) (hnd : ks.Nodup) (hcov : ∀ l ∈ ls, l.ticker ∈ ks) :
    (ks.map (fun t =>
      ((ls.filter (fun l => decide (l.ticker = t))).map f).sum)).sum
      = (ls.map f).sum := by
  induction ks generalizing ls with
  | nil =>
      have : ls = [] := List.eq_nil_iff_forall_not_mem.mpr
        (fun l hl => by simpa using hcov l hl)
      simp [this]
  | cons t ks ih =>
      rcases List.nodup_cons.mp hnd with ⟨hnotmem, hnd'⟩
      have hsplit : (ls.map f).sum =
          ((ls.filter (fun l => decide (l.ticker = t))).map f).sum +
          ((ls.filter (fun l => !decide (l.ticker = t))).map f).sum := by
        have hp := (List.filter_append_perm
          (fun l : ValuedLot => decide (l.ticker = t)) ls).map f
        rw [List.map_append] at hp
        rw [← hp.sum_eq, List.sum_append]
      have hcong : ∀ t' ∈ ks,
          ((ls.filter (fun l => decide (l.ticker = t'))).map f).sum =
          (((ls.filter (fun l => !decide (l.ticker = t))).filter
            (fun l => decide (l.ticker = t'))).map f).sum := by
        intro t' ht'
        have hne : t' ≠ t := fun h => hnotmem (h ▸ ht')
        rw [List.filter_filter]
        have hfe : ls.filter (fun l => decide (l.ticker = t')) =
            ls.filter (fun a => decide (a.ticker = t') &&
              !decide (a.ticker = t)) := by
          apply List.filter_congr
          intro l _
          by_cases hl : l.ticker = t'
          · simp [hl, hne]
          · simp [hl]
        rw [hfe]
      have hIH := ih (ls.filter (fun l => !decide (l.ticker = t))) hnd'
        (by
          intro l hl
          rcases List.mem_filter.mp hl with ⟨hmem, hne⟩
          have := hcov l hmem
          rcases List.mem_cons.mp this with h | h
          · simp [h] at hne
          · exact h)
      calc (List.map (fun t' =>
            ((ls.filter (fun l => decide (l.ticker = t'))).map f).sum) (t :: ks)).sum
          = ((ls.filter (fun l => decide (l.ticker = t))).map f).sum +
            (ks.map (fun t' =>
              ((ls.filter (fun l => decide (l.ticker = t'))).map f).sum)).sum := by
            simp
        _ = ((ls.filter (fun l => decide (l.ticker = t))).map f).sum +
            (ks.map (fun t' =>
              (((ls.filter (fun l => !decide (l.ticker = t))).filter
                (fun l => decide (l.ticker = t'))).map f).sum)).sum := by
            rw [List.map_congr_left hcong]
        _ = ((ls.filter (fun l => decide (l.ticker = t))).map f).sum +
            ((ls.filter (fun l => !decide (l.ticker = t))).map f).sum := by
            rw [hIH]
        _ = (ls.map f).sum := hsplit.symm

/-- Helper: with all-finite lot values and a nonzero finite total, the
current weight of the row of ticker `t` is the fiber sum over the total. -/
theorem mkAllocRow_weight (lots : List ValuedLot)
    (target : List (String × ℚ)) (t : String) {V : ℚ}
    (hfin : ∀ l ∈ lots, l.current_value.isFinite = true)
    (hV : psum (lots.map (fun l => l.current_value)) = PVal.fin V)
    (hVne : V ≠ 0) :
    (mkAllocRow lots target (psum (lots.map (fun l => l.current_value)))
        t).current_weight =
      PVal.fin (((lots.filter (fun l => decide (l.ticker = t))).map
        (fun l => l.current_value.toQ)).sum / V) := by
  have hgrp : psum ((lots.filter (fun l => decide (l.ticker = t))).map
      (fun l => l.current_value)) =
      PVal.fin (((lots.filter (fun l => decide (l.ticker = t))).map
        (fun l => l.current_value.toQ)).sum) := by
    rw [psum_fin]
    · rw [List.map_map]
      rfl
    · intro x hx
      rcases List.mem_map.mp hx with ⟨l, hl, rfl⟩
      exact hfin l (List.mem_filter.mp hl).1
  show PVal.div _ _ = _
  rw [hgrp, hV, PVal.div_fin hVne]

/-- C4: whenever every lot's current value is a finite float and the total
current value is strictly positive, the `current_weight` entries of the
allocation rows are finite and sum to 1 (so certainly to within 1e-6). -/
theorem C4_weight_conservation (lots : List ValuedLot)
    (target : List (String × ℚ))
    (hfin : ∀ l ∈ lots, l.current_value.isFinite = true)
    (hpos : 0 < (lots.map (fun l => l.current_value.toQ)).sum) :
    (∀ r ∈ analyze_allocation lots target, r.current_weight.isFinite = true) ∧
    |((analyze_allocation lots target).map
        (fun r => r.current_weight.toQ)).sum - 1| ≤ 1/1000000 := by
  set V : ℚ := (lots.map (fun l => l.current_value.toQ)).sum with hVdef
  have hVne : V ≠ 0 := ne_of_gt hpos
  have hV : psum (lots.map (fun l => l.current_value)) = PVal.fin V := by
    rw [psum_fin]
    · rw [List.map_map]
      rfl
    · intro x hx
      rcases List.mem_map.mp hx with ⟨l, hl, rfl⟩
      exact hfin l hl
  have hweight := fun t => mkAllocRow_weight lots target t hfin hV hVne
  constructor
  · intro r hr
    rcases mem_analyze_allocation hr with ⟨t, rfl⟩
    rw [hweight t]
    rfl
  · have hperm := (analyze_allocation_perm lots target).map
      (fun r => r.current_weight.toQ)
    rw [hperm.sum_eq, List.map_map]
    have hmapeq : ((fun r : AllocRow => r.current_weight.toQ) ∘
        mkAllocRow lots target (psum (lots.map (fun l => l.current_value)))) =
        fun t => ((lots.filter (fun l => decide (l.ticker = t))).map
          (fun l => l.current_value.toQ)).sum / V := by
      funext t
      show (mkAllocRow lots target _ t).current_weight.toQ = _
      rw [hweight t]
      rfl
    rw [hmapeq]
    have hfib := sum_map_filter_eq
      (sortB (fun a b => decide (a < b)) (lots.map (fun l => l.ticker)).dedup)
      lots (fun l => l.current_value.toQ)
      ((sortB_perm _ _).nodup_iff.mpr (List.nodup_dedup _))
      (by
        intro l hl
        refine (sortB_perm _ _).mem_iff.mpr ?_
        exact List.mem_dedup.mpr (List.mem_map_of_mem _ hl))
    have hdiv : ((sortB (fun a b => decide (a < b))
        (lots.map (fun l => l.ticker)).dedup).map (fun t =>
          ((lots.filter (fun l => decide (l.ticker = t))).map
            (fun l => l.current_value.toQ)).sum / V)).sum =
        ((sortB (fun a b => decide (a < b))
          (lots.map (fun l => l.ticker)).dedup).map (fun t =>
            ((lots.filter (fun l => decide (l.ticker = t))).map
              (fun l => l.current_value.toQ)).sum)).sum / V := by
      rw [← list_sum_div, List.map_map]
      rfl
    rw [hdiv, hfib, ← hVdef, div_self hVne]
    norm_num

/-- Witness for C4: the concrete single-ticker portfolio. -/
theorem C4_weight_conservation_witness :
    (∀ r ∈ analyze_allocation exVLots exTargetNvda,
      r.current_weight.isFinite = true) ∧
    |((analyze_allocation exVLots exTargetNvda).map
        (fun r => r.current_weight.toQ)).sum - 1| ≤ 1/1000000 :=
  C4_weight_conservation exVLots exTargetNvda
    (by with_unfolding_all decide) (by with_unfolding_all decide)

/-! Claim C5. -/

/-- C5: a row held with positive (finite) current value whose target weight
is 0 always yields exactly one trade for its ticker, and that trade is a
LIQUIDATE SELL, whatever the drift is. -/
theorem C5_liquidation_forcing (allocation : List AllocRow)
    (portfolio : List ValuedLot) (total_portfolio_value tax_rate : ℚ)
    (row : AllocRow) (v : ℚ)
    (hnd : (allocation.map (fun r => r.ticker)).Nodup)
    (hmem : row ∈ allocation)
    (htw : row.target_weight = 0)
    (hv : row.current_value = PVal.fin v) (hv0 : 0 < v) :
    ((generate_rebalancing_trades allocation portfolio total_portfolio_value
        tax_rate).filter (fun t => decide (t.ticker = row.ticker))).length = 1 ∧
    ∀ t ∈ generate_rebalancing_trades allocation portfolio
        total_portfolio_value tax_rate,
      t.ticker = row.ticker →
        t.trade_type = TradeType.LIQUIDATE ∧ t.action = TradeAction.SELL := by
  have hinj := List.inj_on_of_nodup_map hnd
  have hconrow : tradeCond row = true := by
    simp [tradeCond, htw]
  have huniq : ∀ r ∈ allocation, r.ticker = row.ticker → r = row :=
    fun r hr he => hinj hr hmem he
  constructor
  · rw [← List.countP_eq_length_filter]
    rw [(generate_perm allocation portfolio total_portfolio_value
      tax_rate).countP_eq]
    rw [List.countP_map]
    have hcomp : ((fun t : Trade => decide (t.ticker = row.ticker)) ∘
        mkTrade portfolio total_portfolio_value tax_rate) =
        fun r : AllocRow => decide (r.ticker = row.ticker) := rfl
    rw [hcomp, List.countP_filter]
    have hcond : List.countP
        (fun r : AllocRow => decide (r.ticker = row.ticker) && tradeCond r)
        allocation =
        List.countP (fun r : AllocRow => decide (r.ticker = row.ticker))
          allocation := by
      apply List.countP_congr
      intro r hr
      by_cases he : r.ticker = row.ticker
      · have : r = row := huniq r hr he
        subst this
        simp [hconrow]
      · simp [he]
    rw [hcond]
    have hone : List.countP
        (fun r : AllocRow => decide (r.ticker = row.ticker)) allocation =
        List.count row.ticker (allocation.map (fun r => r.ticker)) := by
      rw [List.count_eq_countP, List.countP_map]
      apply List.countP_congr
      intro r _
      by_cases he : r.ticker = row.ticker <;> simp [he, Function.comp]
    rw [hone]
    exact List.count_eq_one_of_mem hnd (List.mem_map_of_mem _ hmem)
  · intro t ht hticker
    rcases mem_generate ht with ⟨r, hr, _, rfl⟩
    have he : r.ticker = row.ticker := hticker
    have : r = row := huniq r hr he
    subst this
    constructor
    · simp [mkTrade, htw]
    · have hdc : PVal.sub (PVal.fin (r.target_weight * total_portfolio_value))
          r.current_value = PVal.fin (-v) := by
        rw [hv, PVal.sub_fin, htw]
        norm_num
      show (if pythonLt (PVal.fin 0) (PVal.sub
          (PVal.fin (r.target_weight * total_portfolio_value))
          r.current_value) then TradeAction.BUY else TradeAction.SELL) = _
      rw [hdc]
      have : pythonLt (PVal.fin 0) (PVal.fin (-v)) = false := by
        simp [pythonLt]
        linarith
      rw [this]
      simp

/-- Witness for C5: concrete zero-target row among two rows. -/
theorem C5_liquidation_forcing_witness :
    ((generate_rebalancing_trades [exRowHalf, exRowZeroTarget] [] 500
        (24/100)).filter
      (fun t => decide (t.ticker = exRowZeroTarget.ticker))).length = 1 ∧
    ∀ t ∈ generate_rebalancing_trades [exRowHalf, exRowZeroTarget] [] 500
        (24/100),
      t.ticker = exRowZeroTarget.ticker →
        t.trade_type = TradeType.LIQUIDATE ∧ t.action = TradeAction.SELL :=
  C5_liquidation_forcing [exRowHalf, exRowZeroTarget] [] 500 (24/100)
    exRowZeroTarget 100 (by with_unfolding_all decide)
    (by with_unfolding_all decide) (by with_unfolding_all decide)
    (by with_unfolding_all decide) (by with_unfolding_all decide)

/-! Claim C6. -/

/-- C6: a lot enters the TLH output iff its (finite) unrealized gain is
strictly below `-min_loss`, and every reported opportunity's `tax_benefit`
is exactly `abs(unrealized_loss) * tax_rate`. -/
theorem C6_tlh_threshold (lots : List ValuedLot) (min_loss tax_rate : ℚ) :
    (∀ l ∈ lots, ∀ g : ℚ, l.unrealized_gain = PVal.fin g →
      (mkOpp tax_rate l ∈ identify_tax_loss_harvesting lots min_loss tax_rate ↔
        g < -min_loss))
  ∧ (∀ opp ∈ identify_tax_loss_harvesting lots min_loss tax_rate,
      opp.tax_benefit =
        PVal.mul (PVal.abs opp.unrealized_loss) (PVal.fin tax_rate)) := by
  have hperm : List.Perm
      (identify_tax_loss_harvesting lots min_loss tax_rate)
      ((lots.filter (fun l => pythonLt l.unrealized_gain
        (PVal.fin (-min_loss)))).map (mkOpp tax_rate)) := sortB_perm _ _
  constructor
  · intro l hl g hg
    rw [hperm.mem_iff]
    constructor
    · intro hmem
      rcases List.mem_map.mp hmem with ⟨l', hl', heq⟩
      rcases List.mem_filter.mp hl' with ⟨_, hcond⟩
      have hgain : l'.unrealized_gain = l.unrealized_gain :=
        congrArg TLHOpp.unrealized_loss heq
      rw [hgain, hg] at hcond
      simpa [pythonLt] using hcond
    · intro hlt
      refine List.mem_map_of_mem _ (List.mem_filter.mpr ⟨hl, ?_⟩)
      rw [hg]
      simpa [pythonLt] using hlt
  · intro opp hopp
    rcases List.mem_map.mp (hperm.mem_iff.mp hopp) with ⟨l', _, rfl⟩
    rfl

/-- Witness for C6: the concrete 2000-dollar loss at a 1000 threshold. -/
theorem C6_tlh_threshold_witness :
    ((mkOpp (24/100) exLotB ∈
        identify_tax_loss_harvesting [exLotB] 1000 (24/100)) ↔
      (-2000 : ℚ) < -1000) ∧
    (∀ opp ∈ identify_tax_loss_harvesting [exLotB] 1000 (24/100),
      opp.tax_benefit =
        PVal.mul (PVal.abs opp.unrealized_loss) (PVal.fin (24/100))) :=
  ⟨(C6_tlh_threshold [exLotB] 1000 (24/100)).1 exLotB (by simp) (-2000) rfl,
    (C6_tlh_threshold [exLotB] 1000 (24/100)).2⟩

/-! Claim C7. -/

theorem isBuy_false_action {t : Trade} (h : isBuy t = false) :
    t.action = TradeAction.SELL := by
  cases ht : t.action
  · exfalso
    unfold isBuy at h
    rw [ht] at h
    simp at h
  · rfl

theorem isBuy_true_action {t : Trade} (h : isBuy t = true) :
    t.action = TradeAction.BUY := by
  cases ht : t.action
  · rfl
  · exfalso
    unfold isBuy at h
    rw [ht] at h
    simp at h

theorem action_eq_of_isBuy_eq {a b : Trade} (h : isBuy a = isBuy b) :
    a.action = b.action := by
  cases hb : isBuy b
  · rw [hb] at h
    rw [isBuy_false_action h, isBuy_false_action hb]
  · rw [hb] at h
    rw [isBuy_true_action h, isBuy_true_action hb]

theorem tradeKeyLt_trans : ∀ a b c : Trade, tradeKeyLt a b = true →
    tradeKeyLt b c = true → tradeKeyLt a c = true := by
  intro a b c hab hbc
  unfold tradeKeyLt at *
  by_cases h1 : rankOf a.trade_type = rankOf b.trade_type
  · rw [if_pos h1] at hab
    by_cases h2 : rankOf b.trade_type = rankOf c.trade_type
    · rw [if_pos h2] at hbc
      rw [if_pos (h1.trans h2)]
      by_cases b1 : isBuy a = isBuy b
      · rw [if_pos b1] at hab
        by_cases b2 : isBuy b = isBuy c
        · rw [if_pos b2] at hbc
          rw [if_pos (b1.trans b2)]
          exact pythonLt_trans hab hbc
        · rw [if_neg b2] at hbc
          have hbF : isBuy b = false := by
            revert hbc
            cases isBuy b <;> simp
          have haF : isBuy a = false := b1.trans hbF
          have hcT : isBuy c = true := by
            cases hc : isBuy c
            · exact absurd (hbF.trans hc.symm) b2
            · rfl
          have hac : isBuy a ≠ isBuy c := by
            rw [haF, hcT]
            simp
          rw [if_neg hac, haF]
          rfl
      · rw [if_neg b1] at hab
        have haF : isBuy a = false := by
          revert hab
          cases isBuy a <;> simp
        have hbT : isBuy b = true := by
          cases hb : isBuy b
          · exact absurd (haF.trans hb.symm) b1
          · rfl
        by_cases b2 : isBuy b = isBuy c
        · have hcT : isBuy c = true := b2.symm.trans hbT
          have hac : isBuy a ≠ isBuy c := by
            rw [haF, hcT]
            simp
          rw [if_neg hac, haF]
          rfl
        · rw [if_neg b2] at hbc
          have hbF : isBuy b = false := by
            revert hbc
            cases isBuy b <;> simp
          rw [hbT] at hbF
          simp at hbF
    · rw [if_neg h2] at hbc
      have hlt2 : rankOf b.trade_type < rankOf c.trade_type := by
        simpa using hbc
      have h3 : rankOf a.trade_type ≠ rankOf c.trade_type := by omega
      rw [if_neg h3]
      simp only [decide_eq_true_eq]
      omega
  · rw [if_neg h1] at hab
    have hlt1 : rankOf a.trade_type < rankOf b.trade_type := by
      simpa using hab
    by_cases h2 : rankOf b.trade_type = rankOf c.trade_type
    · have h3 : rankOf a.trade_type ≠ rankOf c.trade_type := by omega
      rw [if_neg h3]
      simp only [decide_eq_true_eq]
      omega
    · rw [if_neg h2] at hbc
      have hlt2 : rankOf b.trade_type < rankOf c.trade_type := by
        simpa using hbc
      have h3 : rankOf a.trade_type ≠ rankOf c.trade_type := by omega
      rw [if_neg h3]
      simp only [decide_eq_true_eq]
      omega

theorem tradeKeyLt_asymm : ∀ a b : Trade, tradeKeyLt a b = true →
    tradeKeyLt b a = false := by
  intro a b hab
  unfold tradeKeyLt at *
  by_cases h1 : rankOf a.trade_type = rankOf b.trade_type
  · rw [if_pos h1] at hab
    rw [if_pos h1.symm]
    by_cases b1 : isBuy a = isBuy b
    · rw [if_pos b1] at hab
      rw [if_pos b1.symm]
      exact pythonLt_asymm hab
    · rw [if_neg b1] at hab
      have haF : isBuy a = false := by
        revert hab
        cases isBuy a <;> simp
      have hbT : isBuy b = true := by
        cases hb : isBuy b
        · exact absurd (haF.trans hb.symm) b1
        · rfl
      have hba : isBuy b ≠ isBuy a := by
        rw [haF, hbT]
        simp
      rw [if_neg hba, hbT]
      rfl
  · rw [if_neg h1] at hab
    have hlt : rankOf a.trade_type < rankOf b.trade_type := by
      simpa using hab
    have h1' : rankOf b.trade_type ≠ rankOf a.trade_type := by omega
    rw [if_neg h1']
    simp only [decide_eq_false_iff_not, decide_eq_true_eq, not_lt]
    omega

/-- Helper: with finite row values every generated trade has a finite
dollar amount. -/
theorem generate_amount_fin {allocation : List AllocRow}
    {portfolio : List ValuedLot} {total_portfolio_value tax_rate : ℚ}
    (hfin : ∀ row ∈ allocation, row.current_value.isFinite = true) :
    ∀ t ∈ generate_rebalancing_trades allocation portfolio
      total_portfolio_value tax_rate, ∃ q : ℚ, t.dollar_amount = PVal.fin q := by
  intro t ht
  rcases mem_generate ht with ⟨row, hrow, _, rfl⟩
  have hf := hfin row hrow
  cases hcv : row.current_value with
  | fin q =>
      refine ⟨|row.target_weight * total_portfolio_value - q|, ?_⟩
      show PVal.abs (PVal.sub _ _) = _
      rw [hcv, PVal.sub_fin, PVal.abs_fin]
  | pinf => rw [hcv] at hf; simp [PVal.isFinite] at hf
  | ninf => rw [hcv] at hf; simp [PVal.isFinite] at hf
  | nan => rw [hcv] at hf; simp [PVal.isFinite] at hf

/-- C7: the generated trade list is ordered by trade-type rank
(LIQUIDATE=0, ADJUST=1, NEW_POSITION=2), then SELL before BUY, then dollar
amount descending, whenever the allocation rows carry finite values. -/
theorem C7_trade_ordering (allocation : List AllocRow)
    (portfolio : List ValuedLot) (total_portfolio_value tax_rate : ℚ)
    (hfin : ∀ row ∈ allocation, row.current_value.isFinite = true) :
    (generate_rebalancing_trades allocation portfolio total_portfolio_value
        tax_rate).Pairwise
      (fun a b => rankOf a.trade_type < rankOf b.trade_type ∨
        (rankOf a.trade_type = rankOf b.trade_type ∧
          ((a.action = TradeAction.SELL ∧ b.action = TradeAction.BUY) ∨
            (a.action = b.action ∧
              pythonLe b.dollar_amount a.dollar_amount = true)))) := by
  have hpw : (generate_rebalancing_trades allocation portfolio
      total_portfolio_value tax_rate).Pairwise (notAfter tradeKeyLt) :=
    sortB_pairwise tradeKeyLt_trans tradeKeyLt_asymm _
  refine hpw.imp_of_mem ?_
  intro a b hamem hbmem hR
  rcases generate_amount_fin hfin a hamem with ⟨qa, ha⟩
  rcases generate_amount_fin hfin b hbmem with ⟨qb, hb⟩
  unfold notAfter tradeKeyLt at hR
  by_cases h1 : rankOf b.trade_type = rankOf a.trade_type
  · right
    refine ⟨h1.symm, ?_⟩
    rw [if_pos h1] at hR
    by_cases h2 : isBuy b = isBuy a
    · right
      refine ⟨action_eq_of_isBuy_eq h2.symm, ?_⟩
      rw [if_pos h2, hb, ha] at hR
      rw [hb, ha]
      have hnlt : pythonLt (PVal.fin (-qb)) (PVal.fin (-qa)) = false := hR
      simp only [pythonLt, decide_eq_false_iff_not, not_lt] at hnlt
      simp only [pythonLe, decide_eq_true_eq]
      linarith
    · left
      rw [if_neg h2] at hR
      have hbT : isBuy b = true := by
        revert hR
        cases isBuy b <;> simp
      have haF : isBuy a = false := by
        cases hav : isBuy a
        · rfl
        · exact absurd (hbT.trans hav.symm) h2
      exact ⟨isBuy_false_action haF, isBuy_true_action hbT⟩
  · left
    rw [if_neg h1] at hR
    simp only [decide_eq_false_iff_not, not_lt] at hR
    omega

/-- Witness for C7: a concrete two-row generation. -/
theorem C7_trade_ordering_witness :
    (generate_rebalancing_trades [exRowHalf, exRowZeroTarget] [] 500
        (24/100)).Pairwise
      (fun a b => rankOf a.trade_type < rankOf b.trade_type ∨
        (rankOf a.trade_type = rankOf b.trade_type ∧
          ((a.action = TradeAction.SELL ∧ b.action = TradeAction.BUY) ∨
            (a.action = b.action ∧
              pythonLe b.dollar_amount a.dollar_amount = true)))) :=
  C7_trade_ordering [exRowHalf, exRowZeroTarget] [] 500 (24/100)
    (by with_unfolding_all decide)

/-! Claim C8. -/

/-- Helper: inserting an element of key-class `p` appends it after the
`p`-elements already present (stability of one insertion), when
`p`-elements are mutually unordered, `lt` depends only on the key on its
left argument within `p`, and the list is sorted. -/
theorem insertB_filter_pos {α : Type} {lt : α → α → Bool} {p : α → Bool}
    (hpp : ∀ a b : α, p a = true → p b = true → lt a b = false)
    (hcong : ∀ a b c : α, p a = true → p c = true → lt a b = lt c b)
    (x : α) (hx : p x = true) :
    ∀ {l : List α}, l.Pairwise (notAfter lt) →
      (insertB lt x l).filter p = l.filter p ++ [x] := by
  intro l
  induction l with
  | nil =>
      intro _
      simp [insertB, hx]
  | cons y ys ih =>
      intro hl
      rcases List.pairwise_cons.mp hl with ⟨hy, hys⟩
      by_cases h : lt x y = true
      · have hempty : (y :: ys).filter p = [] := by
          rw [List.filter_eq_nil_iff]
          intro z hz hpz
          rcases List.mem_cons.mp hz with rfl | hz'
          · rw [hpp x z hx hpz] at h
            exact Bool.false_ne_true h
          · have hzy : lt z y = lt x y := hcong z y x hpz hx
            have hsorted := hy z hz'
            unfold notAfter at hsorted
            rw [hzy, h] at hsorted
            exact absurd hsorted (by simp)
        rw [insertB, if_pos h, List.filter_cons, hempty]
        simp [hx]
      · rw [insertB, if_neg h, List.filter_cons, List.filter_cons,
          ih hys]
        by_cases hpy : p y = true
        · simp [hpy]
        · simp [hpy]

/-- Helper: inserting an element outside the key-class `p` leaves the
`p`-filter unchanged. -/
theorem insertB_filter_neg {α : Type} {lt : α → α → Bool} {p : α → Bool}
    (x : α) (hx : p x = false) :
    ∀ (l : List α), (insertB lt x l).filter p = l.filter p := by
  intro l
  induction l with
  | nil => simp [insertB, hx]
  | cons y ys ih =>
      by_cases h : lt x y = true
      · rw [insertB, if_pos h, List.filter_cons, hx]
        simp
      · rw [insertB, if_neg h, List.filter_cons, List.filter_cons, ih]

/-- Helper: the stable sort preserves the relative order of elements with
the same key-class. -/
theorem sortB_filter_stable {α : Type} {lt : α → α → Bool} {p : α → Bool}
    (htr : ∀ a b c : α, lt a b = true → lt b c = true → lt a c = true)
    (hasym : ∀ a b : α, lt a b = true → lt b a = false)
    (hpp : ∀ a b : α, p a = true → p b = true → lt a b = false)
    (hcong : ∀ a b c : α, p a = true → p c = true → lt a b = lt c b)
    (l : List α) : (sortB lt l).filter p = l.filter p := by
  suffices haux : ∀ (l acc : List α), acc.Pairwise (notAfter lt) →
      (l.foldl (fun acc x => insertB lt x acc) acc).filter p =
        acc.filter p ++ l.filter p by
    simpa [sortB] using haux l [] (by simp)
  intro l
  induction l with
  | nil =>
      intro acc _
      simp
  | cons x xs ih =>
      intro acc hacc
      rw [List.foldl_cons]
      rw [ih (insertB lt x acc) (insertB_pairwise htr hasym x hacc)]
      rw [List.filter_cons]
      by_cases hx : p x = true
      · rw [insertB_filter_pos hpp hcong x hx hacc]
        simp [hx]
      · rw [insertB_filter_neg x (by simpa using hx)]
        simp [hx]

/-- C8, counterexample: two lots with identical 2000-dollar losses, ticker
"B" first in the portfolio, produce two opportunities with equal
`tax_benefit` 480 listed as B before A — input order, not ticker
ascending. -/
theorem C8_counterexample :
    ((identify_tax_loss_harvesting [exLotB, exLotA] 1000 (24/100)).map
      (fun o => o.ticker) = ["B", "A"]) ∧
    ((identify_tax_loss_harvesting [exLotB, exLotA] 1000 (24/100)).map
      (fun o => o.tax_benefit) = [PVal.fin 480, PVal.fin 480]) := by
  with_unfolding_all decide

/-- Helper: under the threshold filter every opportunity of a portfolio
without `-inf` gains has a finite tax benefit. -/
theorem tlh_benefit_fin {lots : List ValuedLot} {min_loss tax_rate : ℚ}
    (hninf : ∀ l ∈ lots, l.unrealized_gain ≠ PVal.ninf) :
    ∀ opp ∈ identify_tax_loss_harvesting lots min_loss tax_rate,
      ∃ q : ℚ, opp.tax_benefit = PVal.fin q := by
  intro opp hopp
  have hperm : List.Perm
      (identify_tax_loss_harvesting lots min_loss tax_rate)
      ((lots.filter (fun l => pythonLt l.unrealized_gain
        (PVal.fin (-min_loss)))).map (mkOpp tax_rate)) := sortB_perm _ _
  rcases List.mem_map.mp (hperm.mem_iff.mp hopp) with ⟨l', hl', rfl⟩
  rcases List.mem_filter.mp hl' with ⟨hmem, hcond⟩
  cases hg : l'.unrealized_gain with
  | fin g =>
      refine ⟨|g| * tax_rate, ?_⟩
      show PVal.mul (PVal.abs l'.unrealized_gain) (PVal.fin tax_rate) = _
      rw [hg, PVal.abs_fin, PVal.mul_fin]
  | pinf => rw [hg] at hcond; simp [pythonLt] at hcond
  | ninf => exact absurd hg (hninf l' hmem)
  | nan => rw [hg] at hcond; simp [pythonLt] at hcond

/-- C8, amended: the TLH output is sorted descending by `tax_benefit`
(assuming no lot carries a `-inf` gain, so the benefits are comparable),
and opportunities with equal `tax_benefit` appear in the order of the input
lots — Python's `sorted` is stable — not in ticker-ascending order. -/
theorem C8_tlh_sorted_stable (lots : List ValuedLot) (min_loss tax_rate : ℚ)
    (hninf : ∀ l ∈ lots, l.unrealized_gain ≠ PVal.ninf) :
    (identify_tax_loss_harvesting lots min_loss tax_rate).Pairwise
      (fun a b => pythonLe b.tax_benefit a.tax_benefit = true) ∧
    ∀ c : PVal,
      (identify_tax_loss_harvesting lots min_loss tax_rate).filter
        (fun o => decide (o.tax_benefit = c)) =
      ((lots.filter (fun l => pythonLt l.unrealized_gain
        (PVal.fin (-min_loss)))).map (mkOpp tax_rate)).filter
        (fun o => decide (o.tax_benefit = c)) := by
  have htr : ∀ a b c : TLHOpp,
      (pythonLt b.tax_benefit a.tax_benefit) = true →
      (pythonLt c.tax_benefit b.tax_benefit) = true →
      (pythonLt c.tax_benefit a.tax_benefit) = true :=
    fun a b c hab hbc => pythonLt_trans hbc hab
  have hasym : ∀ a b : TLHOpp,
      (pythonLt b.tax_benefit a.tax_benefit) = true →
      (pythonLt a.tax_benefit b.tax_benefit) = false :=
    fun a b hab => pythonLt_asymm hab
  constructor
  · have hpw : (identify_tax_loss_harvesting lots min_loss
        tax_rate).Pairwise
        (notAfter (fun a b => pythonLt b.tax_benefit a.tax_benefit)) :=
      sortB_pairwise htr hasym _
    refine hpw.imp_of_mem ?_
    intro a b hamem hbmem hR
    rcases tlh_benefit_fin hninf a hamem with ⟨qa, ha⟩
    rcases tlh_benefit_fin hninf b hbmem with ⟨qb, hb⟩
    have hR' : pythonLt a.tax_benefit b.tax_benefit = false := hR
    rw [ha, hb] at hR' ⊢
    simp only [pythonLt, decide_eq_false_iff_not, not_lt] at hR'
    simp only [pythonLe, decide_eq_true_eq]
    exact hR'
  · intro c
    exact sortB_filter_stable htr hasym
      (fun a b hpa hpb => by
        have hac : a.tax_benefit = c := by simpa using hpa
        have hbc : b.tax_benefit = c := by simpa using hpb
        show pythonLt b.tax_benefit a.tax_benefit = false
        rw [hac, hbc]
        exact pythonLt_irrefl c)
      (fun a b d hpa hpd => by
        have hac : a.tax_benefit = c := by simpa using hpa
        have hdc : d.tax_benefit = c := by simpa using hpd
        show pythonLt b.tax_benefit a.tax_benefit =
          pythonLt b.tax_benefit d.tax_benefit
        rw [hac, hdc])
      _

/-- Witness for C8: equal-loss portfolio with benefits 480. -/
theorem C8_tlh_sorted_stable_witness :
    (identify_tax_loss_harvesting [exLotB, exLotA] 1000 (24/100)).Pairwise
      (fun a b => pythonLe b.tax_benefit a.tax_benefit = true) ∧
    (identify_tax_loss_harvesting [exLotB, exLotA] 1000 (24/100)).filter
      (fun o => decide (o.tax_benefit = PVal.fin 480)) =
    (([exLotB, exLotA].filter (fun l => pythonLt l.unrealized_gain
      (PVal.fin (-1000)))).map (mkOpp (24/100))).filter
      (fun o => decide (o.tax_benefit = PVal.fin 480)) :=
  ⟨(C8_tlh_sorted_stable [exLotB, exLotA] 1000 (24/100)
      (by with_unfolding_all decide)).1,
    (C8_tlh_sorted_stable [exLotB, exLotA] 1000 (24/100)
      (by with_unfolding_all decide)).2 (PVal.fin 480)⟩

/-! Claim C10. -/

/-- C10: for a SELL trade on a row with positive aggregate unrealized gain,
when the shares needed to raise the dollar amount at the first sorted lot's
current price exceed the total shares held of that ticker, the trade is
still emitted but with `tax_impact == 0` — the estimate is silently
skipped, neither prorated nor turned into an error. -/
theorem C10_oversized_sale_skips_tax (allocation : List AllocRow)
    (portfolio : List ValuedLot) (total_portfolio_value tax_rate : ℚ)
    (row : AllocRow) (hd : ValuedLot) (tl : List ValuedLot)
    (hmem : row ∈ allocation) (hcond : tradeCond row = true)
    (hsell : pythonLt (PVal.fin 0)
      (PVal.sub (PVal.fin (row.target_weight * total_portfolio_value))
        row.current_value) = false)
    (hgain : pythonLt (PVal.fin 0) row.unrealized_gain = true)
    (hsorted : sortB (fun a b => decide (b.cost_basis < a.cost_basis))
      (portfolio.filter (fun l => decide (l.ticker = row.ticker))) = hd :: tl)
    (hexceed : pythonLt
      (PVal.fin (((hd :: tl).map (fun l => l.shares)).sum))
      (PVal.div (PVal.abs (PVal.sub
        (PVal.fin (row.target_weight * total_portfolio_value))
        row.current_value)) hd.current_price) = true) :
    (mkTrade portfolio total_portfolio_value tax_rate row).tax_impact =
      PVal.fin 0 ∧
    mkTrade portfolio total_portfolio_value tax_rate row ∈
      generate_rebalancing_trades allocation portfolio total_portfolio_value
        tax_rate := by
  refine ⟨?_, mkTrade_mem_generate hmem hcond⟩
  show computeTaxImpact portfolio tax_rate row
    (PVal.sub (PVal.fin (row.target_weight * total_portfolio_value))
      row.current_value)
    (if pythonLt (PVal.fin 0)
        (PVal.sub (PVal.fin (row.target_weight * total_portfolio_value))
          row.current_value) then TradeAction.BUY else TradeAction.SELL)
    = PVal.fin 0
  rw [hsell]
  simp only [computeTaxImpact, hsorted, hgain]
  have hle := pythonLe_of_lt_eq_false hexceed
  simp only [Bool.false_eq_true, if_false, Bool.and_true, hle]
  simp

/-- Witness for C10: selling 800 dollars of a ticker backed by a single
one-share lot priced 100 — eight shares would be needed. -/
theorem C10_oversized_sale_skips_tax_witness :
    (mkTrade [exLotOversell] 400 (24/100) exRowOversell).tax_impact =
      PVal.fin 0 ∧
    mkTrade [exLotOversell] 400 (24/100) exRowOversell ∈
      generate_rebalancing_trades [exRowOversell] [exLotOversell] 400
        (24/100) :=
  C10_oversized_sale_skips_tax [exRowOversell] [exLotOversell] 400 (24/100)
    exRowOversell exLotOversell []
    (by simp) (by with_unfolding_all decide) (by with_unfolding_all decide)
    (by with_unfolding_all decide) (by with_unfolding_all decide)
    (by with_unfolding_all decide)
